import Mathlib

/-!
# Verification of Shapleypy restricted-game components

Shallow embedding of the `restricted`/`restrected` packages of the
repository: `FeasibleFamily` (feasible_family.py), `RestrictedGame`
(game.py) and the restricted Shapley-value algorithm (value.py), together
with theorems checking the specification's claims about them.

Python reals are modelled as exact rationals (`ℚ`), Python ints as `ℤ`,
Python `set` as `Finset`, and a method raising an exception as a function
returning the post-state paired with an optional error (the state returned
with an error is the state at the moment the exception was raised, which
makes "no partial mutation" provable).
-/

/-- Modelled from the spec: `Coalition` (external collaborator, file
`shapleypy/coalition.py` not under review): "an immutable value representing
a subset of players `{0,…,n-1}`; supports equality/hashing, iteration over
member players, subset enumeration, and a composition operator producing the
union of two coalitions plus a single-player addition."  Players are Python
ints, so a coalition is a finite set of integers. -/
abbrev Coalition := Finset ℤ

/-- Modelled from the spec: "The empty coalition is a distinguished
constant" (`EMPTY_COALITION`). -/
def EMPTY_COALITION : Coalition := ∅

namespace Coalition

/-- Modelled from the spec: `Coalition.from_players` applied to an iterable
of player indices. -/
def from_players (l : List ℤ) : Coalition := l.toFinset

/-- Modelled from the spec: `Coalition.from_players` applied to a single
player index. -/
def from_player (i : ℤ) : Coalition := {i}

/-- Modelled from the spec: `all_subcoalitions()` enumerates "every
subcoalition of `C` (proper and improper)" (§4.1 downward closure,
`is_hereditary` docstring "∀C∈F, ∀T⊆C ⇒ T∈F"). -/
def all_subcoalitions (C : Coalition) : Finset Coalition := C.powerset

/-- Modelled from the spec: the binary union-composition operator `+`
on two coalitions. -/
def union (A B : Coalition) : Coalition := A ∪ B

/-- Modelled from the spec: `prefix + player`, the union-composition
operator "also usable to add one player to a coalition". -/
def addPlayer (C : Coalition) (i : ℤ) : Coalition := insert i C

end Coalition

/-- Error taxonomy of §7: `domainError` is Python `ValueError` (domain
errors), `typeError` is the TypeError-class, `missingValue` is the
propagated lookup error from the base game. -/
inductive Err where
  | domainError
  | typeError
  | missingValue
deriving DecidableEq, Repr

/-- Python argument that call sites pass where a coalition is expected:
a `Coalition`, a single player index (int), an iterable of player indices,
or anything else (not coercible). -/
inductive PyObj where
  | coalition (C : Coalition)
  | int (i : ℤ)
  | iterable (l : List ℤ)
  | other
deriving DecidableEq

/-- `_to_coalition` (feasible_family.py lines 218-238, identical copy in
game.py lines 80-87): a `Coalition` is returned unchanged, an int becomes
a one-player coalition, an iterable becomes the coalition of its elements,
anything else raises `TypeError`. -/
def toCoalition : PyObj → Except Err Coalition
  | .coalition C => .ok C
  | .int i => .ok (Coalition.from_player i)
  | .iterable l => .ok (Coalition.from_players l)
  | .other => .error .typeError

/-- `FeasibleFamily` state: `_n` (player count) and `_F` (the set of
feasible coalitions).  feasible_family.py lines 32-33. -/
structure FeasibleFamily where
  n : ℤ
  F : Finset Coalition
deriving DecidableEq

/-- The out-of-range test of feasible_family.py lines 37-38 / 120-121:
some player `i` of `C` has `i >= n or i < 0`. -/
def hasOutOfRangePlayer (n : ℤ) (C : Coalition) : Prop :=
  ∃ i ∈ C, n ≤ i ∨ i < 0

instance (n : ℤ) (C : Coalition) : Decidable (hasOutOfRangePlayer n C) := by
  unfold hasOutOfRangePlayer; infer_instance

namespace FeasibleFamily

/-- `__init__` (feasible_family.py lines 17-40), parametrised by the global
bounds `MINIMUM_NUMBER_OF_PLAYERS`/`MAXIMUM_NUMBER_OF_PLAYERS` (constants.py
is not under review, so the bounds stay abstract).  The body first checks
the bounds, then builds `_F` from the iterable, inserts `EMPTY_COALITION`,
and validates every member's players; a violation raises `ValueError`
before the constructed object becomes visible. -/
def init (minPlayers maxPlayers : ℤ) (n_players : ℤ)
    (coalitions : Finset Coalition) : Except Err FeasibleFamily :=
  if maxPlayers < n_players ∨ n_players < minPlayers then
    .error .domainError
  else
    let F := insert EMPTY_COALITION coalitions
    if ∃ C ∈ F, hasOutOfRangePlayer n_players C then .error .domainError
    else .ok ⟨n_players, F⟩

/-- One full pass of `_close_under_union` (feasible_family.py lines
204-216): insert every pairwise union `A + B` of current members.  The
source iterates unordered pairs `(A, B)` with `B` drawn from `L[i:]`
(diagonal included); since union is commutative this inserts exactly the
image of union over all pairs of members. -/
def unionPass (F : Finset Coalition) : Finset Coalition :=
  F ∪ (F ×ˢ F).image (fun p => Coalition.union p.1 p.2)

/-- The `while changed` loop of `_close_under_union` (lines 196-216),
written with explicit fuel: each round either finds nothing to add (the
fixed point, loop exits) or grows `_F` by the missing unions. -/
def closeUnderUnionAux : ℕ → Finset Coalition → Finset Coalition
  | 0, F => F
  | fuel + 1, F => if unionPass F = F then F else closeUnderUnionAux fuel (unionPass F)

/-- `_close_under_union`: run the loop.  Every set reachable by the loop is
a subset of the powerset of the union of the initial members, so that
powerset's cardinality bounds the number of growing rounds and is enough
fuel to reach the fixed point (proved below). -/
def closeUnderUnion (F : Finset Coalition) : Finset Coalition :=
  closeUnderUnionAux ((F.sup id).powerset.card) F

/-- `add` (feasible_family.py lines 100-131) on an already-coerced
coalition, as a state transformer returning the post-state and the raised
error, if any.  The source validates the players first and raises before
touching `_F`, then inserts `C` (`if C not in self._F: self._F.add(C)` is
plain set insertion), then optionally the downward closure, then optionally
the union closure. -/
def addRun (fam : FeasibleFamily) (C : Coalition)
    (enforce_heredity enforce_union_closed : Bool) :
    FeasibleFamily × Option Err :=
  if hasOutOfRangePlayer fam.n C then (fam, some .domainError)
  else
    let F1 := insert C fam.F
    let F2 := if enforce_heredity then F1 ∪ C.all_subcoalitions else F1
    let F3 := if enforce_union_closed then closeUnderUnion F2 else F2
    (⟨fam.n, F3⟩, none)

/-- `add` on a raw Python argument: `_to_coalition` runs first and its
`TypeError` propagates (line 118). -/
def addObj (fam : FeasibleFamily) (obj : PyObj)
    (enforce_heredity enforce_union_closed : Bool) :
    FeasibleFamily × Option Err :=
  match toCoalition obj with
  | .error e => (fam, some e)
  | .ok C => fam.addRun C enforce_heredity enforce_union_closed

/-- `remove` (feasible_family.py lines 134-149) on a coerced coalition:
discard `C` from `_F` unless `C` is the empty coalition. -/
def removeC (fam : FeasibleFamily) (C : Coalition) : FeasibleFamily :=
  if C = EMPTY_COALITION then fam else ⟨fam.n, fam.F.erase C⟩

/-- `remove` on a raw Python argument; the coercion's `TypeError`
propagates. -/
def removeObj (fam : FeasibleFamily) (obj : PyObj) :
    FeasibleFamily × Option Err :=
  match toCoalition obj with
  | .error e => (fam, some e)
  | .ok C => (fam.removeC C, none)

/-- `__contains__` (feasible_family.py lines 56-70): coerce, but catch the
`TypeError` and answer `False`; otherwise test membership in `_F`. -/
def containsObj (fam : FeasibleFamily) (obj : PyObj) : Bool :=
  match toCoalition obj with
  | .error _ => false
  | .ok C => C ∈ fam.F

/-- `is_feasible` (lines 88-98): pure membership test. -/
def is_feasible (fam : FeasibleFamily) (C : Coalition) : Bool := C ∈ fam.F

/-- `coalitions` (lines 79-86): `return set(self._F)`, a copy of the
family (the aliasing aspect is modelled separately with an explicit
store). -/
def coalitions (fam : FeasibleFamily) : Finset Coalition := fam.F

/-- `is_union_closed` (lines 179-192): every pairwise union of members is
a member.  The source iterates unordered pairs (`B` from `L[i:]`, diagonal
included), which by commutativity of union covers all ordered pairs. -/
def is_union_closed (fam : FeasibleFamily) : Bool :=
  decide (∀ A ∈ fam.F, ∀ B ∈ fam.F, Coalition.union A B ∈ fam.F)

end FeasibleFamily

/-- Modelled from the spec: `Game` (external collaborator, §6): "Game:
`number_of_players: int`; `get_value(Coalition) -> float` (fails if unset);
`set_value(Coalition, float)`."  The stored values are a partial map from
coalitions to reals. -/
structure Game where
  number_of_players : ℤ
  values : Coalition → Option ℚ

namespace Game

/-- Modelled from the spec: `Game.get_value` — the recorded value, failing
with a propagated lookup error when no value is recorded. -/
def get_value (g : Game) (C : Coalition) : Except Err ℚ :=
  match g.values C with
  | some v => .ok v
  | none => .error .missingValue

/-- Modelled from the spec: `Game.set_value` — record the value for the
coalition. -/
def set_value (g : Game) (C : Coalition) (v : ℚ) : Game :=
  ⟨g.number_of_players, Function.update g.values C (some v)⟩

end Game

/-- A Python attribute-access result: either an int or a bound-method
object.  Needed because `FeasibleFamily.n` is declared `def n(self) -> int:`
with no `@property` (feasible_family.py line 72 in `restricted/`, lines
42-43 in `restrected/`), so the attribute access `feasible.n` evaluates to
the bound method, not to the integer `self._n`. -/
inductive PyVal where
  | int (i : ℤ)
  | boundMethod
deriving DecidableEq

/-- Python `!=` between such values: two ints compare by value; an int and
a bound-method object are never equal (`int.__ne__` returns
`NotImplemented` on a method, the reflected comparison does too, and the
fallback is identity, which fails), so `!=` yields `True`.  (The
method/method case is never exercised by the sources.) -/
def pyNe : PyVal → PyVal → Bool
  | .int i, .int j => decide (i ≠ j)
  | .int _, .boundMethod => true
  | .boundMethod, .int _ => true
  | .boundMethod, .boundMethod => false

/-- The attribute access `feasible.n`: since `n` is a plain method, this is
the bound-method object, whatever the family's stored `_n` is. -/
def FeasibleFamily.attr_n (_fam : FeasibleFamily) : PyVal := .boundMethod

/-- `RestrictedGame` state: `_game` and `_F` (game.py lines 26-27). -/
structure RestrictedGame where
  game : Game
  F : FeasibleFamily

namespace RestrictedGame

/-- `RestrictedGame.__init__` (restrected/game.py lines 10-27): raise
`ValueError` when `base_game.number_of_players != feasible.n`, otherwise
store the pair.  `base_game.number_of_players` is an int attribute (§6)
while `feasible.n` is the bound method (see `FeasibleFamily.attr_n`), so
the guard compares an int with a method object. -/
def init (base_game : Game) (feasible : FeasibleFamily) :
    Except Err RestrictedGame :=
  if pyNe (.int base_game.number_of_players) feasible.attr_n then
    .error .domainError
  else .ok ⟨base_game, feasible⟩

/-- `RestrictedGame.number_of_players` (a real `@property`, lines 36-42):
delegates to the base game. -/
def number_of_players (rg : RestrictedGame) : ℤ := rg.game.number_of_players

/-- `is_feasible` (lines 64-66): coerce and delegate to the family's
membership test.  (The coercion's `TypeError` would propagate; the
algorithm only calls it on actual coalitions.) -/
def is_feasible (rg : RestrictedGame) (C : Coalition) : Bool :=
  rg.F.is_feasible C

/-- `get_value` (lines 68-72): coerce; raise `ValueError` when the
coalition is not feasible; otherwise delegate to the base game's lookup. -/
def get_value (rg : RestrictedGame) (S : PyObj) : Except Err ℚ :=
  match toCoalition S with
  | .error e => .error e
  | .ok C =>
    if rg.F.is_feasible C then rg.game.get_value C
    else .error .domainError

/-- `set_value` (lines 74-78): same feasibility gate; on success delegate
to the base game's assignment with `float(value)` (identity on a real). -/
def set_value (rg : RestrictedGame) (S : PyObj) (value : ℚ) :
    Except Err RestrictedGame :=
  match toCoalition S with
  | .error e => .error e
  | .ok C =>
    if rg.F.is_feasible C then .ok ⟨rg.game.set_value C value, rg.F⟩
    else .error .domainError

end RestrictedGame

/-! ## The restricted Shapley-value algorithm (value.py) -/

/-- One step of the walk inside `process_single_permutation` (value.py
lines 35-42): form `new_coalition = prefix + player`; if it is feasible,
add the marginal contribution `get_value(new_coalition) -
get_value(prefix)` to `phi[player]` (either lookup may fail with the base
game's propagated error); the prefix advances to `new_coalition`
unconditionally.  `phi` is the accumulator list, modelled as a function on
player indices (the walk only ever touches indices of actual players). -/
def permStep (rg : RestrictedGame) (st : Coalition × (ℤ → ℚ)) (player : ℤ) :
    Except Err (Coalition × (ℤ → ℚ)) :=
  let new_coalition := Coalition.addPlayer st.1 player
  if rg.is_feasible new_coalition then
    match rg.game.get_value new_coalition, rg.game.get_value st.1 with
    | .ok a, .ok b =>
      .ok (new_coalition, Function.update st.2 player (st.2 player + (a - b)))
    | _, _ => .error .missingValue
  else .ok (new_coalition, st.2)

/-- `process_single_permutation` (lines 27-42): walk the ordering from the
empty prefix, accumulating into `phi`. -/
def processPerm (rg : RestrictedGame) (phi : ℤ → ℚ) (order : List ℤ) :
    Except Err (ℤ → ℚ) := do
  let st ← order.foldlM (permStep rg) (EMPTY_COALITION, phi)
  pure st.2

/-- The player list `players = list(range(n))` (line 24). -/
def playersList (n : ℕ) : List ℤ := (List.range n).map Int.ofNat

/-- Exact mode of `shapley_feasible` (lines 23-26, 44-48, 57): process
every permutation of the players into one shared `phi`, then divide each
player's total by `n!`.  `itertools.permutations(players)` yields every one
of the `n!` orderings exactly once; it is modelled by the structural
enumeration `List.permutations'`, whose elements are exactly the
permutations of the input (`List.mem_permutations'`) and whose length is
`n!`.  The enumeration order differs from itertools' lexicographic order,
which is immaterial: the walk of one ordering only adds to `phi` entries,
so the accumulated totals are sums over the set of orderings. -/
def shapley_feasible (rg : RestrictedGame) : Except Err (List ℚ) := do
  let n := rg.number_of_players.toNat
  let players := playersList n
  let phi ← players.permutations'.foldlM (processPerm rg) (fun _ => (0 : ℚ))
  pure (players.map (fun i => phi i / (n.factorial : ℚ)))

/-- Monte-Carlo mode of `shapley_feasible` (lines 49-57) with the sampled
orderings passed explicitly (the source draws them from the process-wide
random generator): the same per-ordering walk, divided by the number of
samples. -/
def shapley_feasible_mc (rg : RestrictedGame) (orders : List (List ℤ)) :
    Except Err (List ℚ) := do
  let n := rg.number_of_players.toNat
  let players := playersList n
  let phi ← orders.foldlM (processPerm rg) (fun _ => (0 : ℚ))
  pure (players.map (fun i => phi i / (orders.length : ℚ)))

/-! ## Spec-side definition of the classical Shapley value -/

/-- The set of predecessors of player `i` in an ordering: the players
before `i`'s first occurrence. -/
def prefixBefore (order : List ℤ) (i : ℤ) : Coalition :=
  (order.takeWhile (fun j => j ≠ i)).toFinset

/-- Player `i`'s marginal contribution in one ordering, for a total value
function `v`: the value `i` adds on joining the coalition of its
predecessors. -/
def marginalOfOrder (v : Coalition → ℚ) (order : List ℤ) (i : ℤ) : ℚ :=
  v (insert i (prefixBefore order i)) - v (prefixBefore order i)

/-- Written to the spec's words (glossary: "Shapley value: the average
marginal contribution of a player across all orderings of the player
set"), independent of value.py, for comparison with `shapley_feasible`:
the classical Shapley value of player `i` in the `n`-player game `v`. -/
def classicalShapley (n : ℕ) (v : Coalition → ℚ) (i : ℤ) : ℚ :=
  (((playersList n).permutations').map (fun ord => marginalOfOrder v ord i)).sum
    / (n.factorial : ℚ)

/-- The set of players `{0,…,n-1}`. -/
def playerSet (n : ℕ) : Finset ℤ := (playersList n).toFinset

/-! ## Store model for the aliasing behaviour of `coalitions()`

Python sets are heap objects; `return set(self._F)` (feasible_family.py
line 86) allocates a fresh set with the same elements, while `return
self._F` would return the very object.  To state the difference we model a
store of set objects addressed by allocation order. -/

/-- A store of Python `set[Coalition]` objects: contents per address, plus
the next fresh address. -/
structure SetStore where
  contents : ℕ → Finset Coalition
  next : ℕ

namespace SetStore

/-- Allocate a fresh set object with the given elements; returns the new
store and the new object's address. -/
def alloc (h : SetStore) (s : Finset Coalition) : SetStore × ℕ :=
  (⟨Function.update h.contents h.next s, h.next + 1⟩, h.next)

/-- In-place mutation of the set object at an address (any combination of
`add`/`discard`/`clear` calls ends in some new contents). -/
def write (h : SetStore) (a : ℕ) (s : Finset Coalition) : SetStore :=
  ⟨Function.update h.contents a s, h.next⟩

end SetStore

/-- A `FeasibleFamily` whose `_F` lives in the store: `addr` is the address
of the set object `self._F`. -/
structure FeasibleFamilyRef where
  n : ℤ
  addr : ℕ

/-- A family reference is valid in a store when its `_F` address was
actually allocated there. -/
def FeasibleFamilyRef.valid (fam : FeasibleFamilyRef) (h : SetStore) : Prop :=
  fam.addr < h.next

/-- `coalitions()` (feasible_family.py lines 79-86) in the store model:
`set(self._F)` allocates a fresh set object holding the same elements and
returns it. -/
def FeasibleFamilyRef.coalitionsRef (fam : FeasibleFamilyRef) (h : SetStore) :
    SetStore × ℕ :=
  h.alloc (h.contents fam.addr)

/-- `is_feasible` in the store model: membership in the set object
`self._F`. -/
def FeasibleFamilyRef.isFeasibleRef (fam : FeasibleFamilyRef) (h : SetStore)
    (C : Coalition) : Bool :=
  C ∈ h.contents fam.addr

/-- The `RestrictedGame.feasible` property (restrected/game.py lines
54-62): `return self._F.coalitions()`, delegation to the family's copying
accessor. -/
def RestrictedGame.feasibleRef (famAddr : FeasibleFamilyRef) (h : SetStore) :
    SetStore × ℕ :=
  famAddr.coalitionsRef h

/-! ## Concrete instances and proof helpers -/

/-- The walk step under the assumptions of claim C2 (candidate always
feasible, base-game value always present), as a pure function; the monadic
`permStep` is reduced to it in the proofs. -/
def stepPure (w : Coalition → ℚ) (st : Coalition × (ℤ → ℚ)) (p : ℤ) :
    Coalition × (ℤ → ℚ) :=
  (insert p st.1,
    Function.update st.2 p (st.2 p + (w (insert p st.1) - w st.1)))

/-- The 3-player example game of §8: v(∅)=0, v({0})=1, v({1})=1,
v({2})=1/2, v({0,1})=3, v({0,2})=6/5, v({1,2})=11/10, v({0,1,2})=4. -/
def vEx : Coalition → Option ℚ := fun C =>
  if C = (∅ : Finset ℤ) then some 0
  else if C = {0} then some 1
  else if C = {1} then some 1
  else if C = {2} then some (1/2)
  else if C = {0, 1} then some 3
  else if C = {0, 2} then some (6/5)
  else if C = {1, 2} then some (11/10)
  else if C = {0, 1, 2} then some 4
  else none

/-- The same values as a total function (0 outside the power set of the
three players). -/
def wEx : Coalition → ℚ := fun C => ((vEx C).getD 0)

/-- The feasible family of the §8 example: all subsets of `{0,1,2}`. -/
def famEx : FeasibleFamily := ⟨3, (playerSet 3).powerset⟩

/-- The §8 example as a restricted game. -/
def rgEx : RestrictedGame := ⟨⟨3, vEx⟩, famEx⟩

/-- A 2-player game in which every coalition (the empty one included) has
value 1, with the full power set feasible. -/
def rgOne : RestrictedGame :=
  ⟨⟨2, fun _ => some 1⟩, ⟨2, (playerSet 2).powerset⟩⟩

/-! ## Lemmas about the closure-under-union loop -/

namespace FeasibleFamily

theorem subset_unionPass (F : Finset Coalition) : F ⊆ unionPass F :=
  Finset.subset_union_left

theorem union_mem_unionPass {F : Finset Coalition} {A B : Coalition}
    (hA : A ∈ F) (hB : B ∈ F) : Coalition.union A B ∈ unionPass F :=
  Finset.mem_union_right _
    (Finset.mem_image.mpr ⟨(A, B), Finset.mem_product.mpr ⟨hA, hB⟩, rfl⟩)

theorem subset_closeUnderUnionAux (fuel : ℕ) (F : Finset Coalition) :
    F ⊆ closeUnderUnionAux fuel F := by
  induction fuel generalizing F with
  | zero => exact Finset.Subset.refl F
  | succ fuel ih =>
    rw [closeUnderUnionAux]
    by_cases h : unionPass F = F
    · rw [if_pos h]
    · rw [if_neg h]
      exact (subset_unionPass F).trans (ih (unionPass F))

theorem subset_closeUnderUnion (F : Finset Coalition) :
    F ⊆ closeUnderUnion F :=
  subset_closeUnderUnionAux _ F

theorem unionPass_subset_powerset {F : Finset Coalition} {U : Finset ℤ}
    (h : F ⊆ U.powerset) : unionPass F ⊆ U.powerset := by
  intro A hA
  rcases Finset.mem_union.mp hA with h1 | h2
  · exact h h1
  · obtain ⟨p, hp, rfl⟩ := Finset.mem_image.mp h2
    obtain ⟨h3, h4⟩ := Finset.mem_product.mp hp
    exact Finset.mem_powerset.mpr
      (Finset.union_subset (Finset.mem_powerset.mp (h h3))
        (Finset.mem_powerset.mp (h h4)))

theorem card_lt_of_unionPass_ne {F : Finset Coalition}
    (h : unionPass F ≠ F) : F.card < (unionPass F).card :=
  Finset.card_lt_card
    (Finset.ssubset_iff_subset_ne.mpr ⟨subset_unionPass F, Ne.symm h⟩)

theorem closeUnderUnionAux_fixed {U : Finset ℤ} :
    ∀ (fuel : ℕ) (F : Finset Coalition), F ⊆ U.powerset →
      U.powerset.card ≤ fuel + F.card →
      unionPass (closeUnderUnionAux fuel F) = closeUnderUnionAux fuel F := by
  intro fuel
  induction fuel with
  | zero =>
    intro F hsub hcard
    rw [closeUnderUnionAux]
    have hF : F = U.powerset :=
      Finset.eq_of_subset_of_card_le hsub (by omega)
    have h1 : unionPass F ⊆ F := by
      have h2 := unionPass_subset_powerset (U := U) hsub
      rwa [← hF] at h2
    exact Finset.Subset.antisymm h1 (subset_unionPass F)
  | succ fuel ih =>
    intro F hsub hcard
    rw [closeUnderUnionAux]
    by_cases h : unionPass F = F
    · rw [if_pos h]
      exact h
    · rw [if_neg h]
      apply ih (unionPass F) (unionPass_subset_powerset hsub)
      have := card_lt_of_unionPass_ne h
      omega

theorem closeUnderUnion_fixed (F : Finset Coalition) :
    unionPass (closeUnderUnion F) = closeUnderUnion F := by
  apply closeUnderUnionAux_fixed (U := F.sup id)
  · intro A hA
    exact Finset.mem_powerset.mpr (Finset.le_sup (f := id) hA)
  · omega

theorem closeUnderUnion_unionClosed {F : Finset Coalition} {A B : Coalition}
    (hA : A ∈ closeUnderUnion F) (hB : B ∈ closeUnderUnion F) :
    Coalition.union A B ∈ closeUnderUnion F := by
  rw [← closeUnderUnion_fixed F]
  exact union_mem_unionPass hA hB

/-- `addRun` on an in-range coalition: explicit result. -/
theorem addRun_ok {fam : FeasibleFamily} {C : Coalition} {eh euc : Bool}
    (h : ¬ hasOutOfRangePlayer fam.n C) :
    fam.addRun C eh euc =
      (⟨fam.n,
        (fun F2 => if euc then closeUnderUnion F2 else F2)
          (if eh then insert C fam.F ∪ C.all_subcoalitions
           else insert C fam.F)⟩, none) := by
  unfold addRun
  rw [if_neg h]

/-- `addRun` never removes a member: the pre-state's coalitions survive. -/
theorem mem_addRun_of_mem {fam : FeasibleFamily} {C : Coalition}
    {eh euc : Bool} {T : Coalition} (hT : T ∈ fam.F) :
    T ∈ (fam.addRun C eh euc).1.F := by
  by_cases h : hasOutOfRangePlayer fam.n C
  · unfold addRun
    rw [if_pos h]
    exact hT
  · rw [addRun_ok h]
    dsimp only
    have h2 : T ∈ (if eh then insert C fam.F ∪ C.all_subcoalitions
        else insert C fam.F) := by
      cases eh <;> simp only [if_true, if_false, Bool.false_eq_true, ite_true, ite_false]
      · exact Finset.mem_insert_of_mem hT
      · exact Finset.mem_union_left _ (Finset.mem_insert_of_mem hT)
    cases euc <;>
      simp only [if_true, if_false, Bool.false_eq_true, ite_true, ite_false]
    · exact h2
    · exact subset_closeUnderUnion _ h2

end FeasibleFamily

/-- C1: "For every base game and feasible family, constructing a
RestrictedGame fails with a domain error if and only if the base game's
player count differs from the family's player count n; when the counts
agree, construction succeeds with no other validation."  The code disagrees:
`FeasibleFamily.n` is a plain method (no `@property`), so the guard
`base_game.number_of_players != feasible.n` compares an int with a
bound-method object and is always true — construction raises `ValueError`
for every input, including when the player counts agree. -/
theorem RestrictedGame.init_always_raises
    (base_game : Game) (feasible : FeasibleFamily) :
    RestrictedGame.init base_game feasible = .error .domainError := by
  rfl

/-- C6: "For every coalition containing a player index >= n or < 0,
FeasibleFamily construction (when such a coalition is in the initial
iterable) and add both fail with a domain error, and after a failed add the
family's set of coalitions is exactly what it was before the call."  The
first component of `addRun`'s result is the state at the moment of the
raise, so returning `fam` itself is the no-partial-mutation property. -/
theorem feasibleFamily_out_of_range_fails :
    (∀ (minP maxP n : ℤ) (cols : Finset Coalition) (C : Coalition),
      C ∈ cols → hasOutOfRangePlayer n C →
      FeasibleFamily.init minP maxP n cols = .error .domainError) ∧
    (∀ (fam : FeasibleFamily) (C : Coalition) (eh euc : Bool),
      hasOutOfRangePlayer fam.n C →
      fam.addRun C eh euc = (fam, some .domainError)) := by
  constructor
  · intro minP maxP n cols C hmem hC
    unfold FeasibleFamily.init
    by_cases h1 : maxP < n ∨ n < minP
    · rw [if_pos h1]
    · rw [if_neg h1]
      dsimp only
      rw [if_pos ⟨C, Finset.mem_insert_of_mem hmem, hC⟩]
  · intro fam C eh euc hC
    unfold FeasibleFamily.addRun
    rw [if_pos hC]

/-- Closed instance of `feasibleFamily_out_of_range_fails`: player 5 is out
of range for 2 players, so construction with `{5}` in the iterable fails and
`add {5}` fails leaving the family unchanged. -/
theorem feasibleFamily_out_of_range_fails_witness :
    FeasibleFamily.init 1 10 2 {({5} : Finset ℤ)} = .error .domainError ∧
    (⟨2, {EMPTY_COALITION}⟩ : FeasibleFamily).addRun {5} true false
      = (⟨2, {EMPTY_COALITION}⟩, some .domainError) :=
  ⟨feasibleFamily_out_of_range_fails.1 1 10 2 _ {5} (by decide) (by decide),
   feasibleFamily_out_of_range_fails.2 ⟨2, {EMPTY_COALITION}⟩ {5} true false
     (by decide)⟩

/-- C7: "For every successfully constructed FeasibleFamily, the empty
coalition is a member of F, and this membership is preserved by every add
and every remove: in particular remove applied to the empty coalition is a
no-op that leaves F unchanged and does not fail." -/
theorem feasibleFamily_empty_coalition_invariant :
    (∀ (minP maxP n : ℤ) (cols : Finset Coalition) (fam : FeasibleFamily),
      FeasibleFamily.init minP maxP n cols = .ok fam →
      EMPTY_COALITION ∈ fam.F) ∧
    (∀ (fam : FeasibleFamily) (C : Coalition) (eh euc : Bool),
      EMPTY_COALITION ∈ fam.F →
      EMPTY_COALITION ∈ (fam.addRun C eh euc).1.F) ∧
    (∀ (fam : FeasibleFamily) (C : Coalition),
      EMPTY_COALITION ∈ fam.F → EMPTY_COALITION ∈ (fam.removeC C).F) ∧
    (∀ (fam : FeasibleFamily),
      fam.removeC EMPTY_COALITION = fam ∧
      fam.removeObj (.coalition EMPTY_COALITION) = (fam, none)) := by
  refine ⟨?_, ?_, ?_, ?_⟩
  · intro minP maxP n cols fam h
    unfold FeasibleFamily.init at h
    by_cases h1 : maxP < n ∨ n < minP
    · rw [if_pos h1] at h
      exact absurd h (by simp)
    · rw [if_neg h1] at h
      dsimp only at h
      by_cases h2 : ∃ C ∈ insert EMPTY_COALITION cols, hasOutOfRangePlayer n C
      · rw [if_pos h2] at h
        exact absurd h (by simp)
      · rw [if_neg h2] at h
        injection h with h
        rw [← h]
        exact Finset.mem_insert_self _ _
  · intro fam C eh euc hmem
    exact FeasibleFamily.mem_addRun_of_mem hmem
  · intro fam C hmem
    unfold FeasibleFamily.removeC
    by_cases h : C = EMPTY_COALITION
    · rw [if_pos h]
      exact hmem
    · rw [if_neg h]
      exact Finset.mem_erase.mpr ⟨fun e => h e.symm, hmem⟩
  · intro fam
    constructor
    · unfold FeasibleFamily.removeC
      rw [if_pos rfl]
    · show (fam.removeC EMPTY_COALITION, none) = (fam, none)
      rw [show fam.removeC EMPTY_COALITION = fam from by
        unfold FeasibleFamily.removeC; rw [if_pos rfl]]

/-- Closed instance of `feasibleFamily_empty_coalition_invariant` on a
2-player family: the constructed family contains the empty coalition,
membership survives an `add` and a `remove`, and removing the empty
coalition is a failure-free no-op. -/
theorem feasibleFamily_empty_coalition_invariant_witness :
    EMPTY_COALITION ∈
      (⟨2, insert EMPTY_COALITION {({0} : Finset ℤ)}⟩ : FeasibleFamily).F ∧
    EMPTY_COALITION ∈
      ((⟨2, {EMPTY_COALITION}⟩ : FeasibleFamily).addRun {0} true false).1.F ∧
    EMPTY_COALITION ∈
      ((⟨2, {EMPTY_COALITION, ({0} : Finset ℤ)}⟩ : FeasibleFamily).removeC {0}).F ∧
    (⟨2, {EMPTY_COALITION}⟩ : FeasibleFamily).removeC EMPTY_COALITION
      = ⟨2, {EMPTY_COALITION}⟩ :=
  ⟨feasibleFamily_empty_coalition_invariant.1 1 10 2 {({0} : Finset ℤ)} _
     (by rfl),
   feasibleFamily_empty_coalition_invariant.2.1 ⟨2, {EMPTY_COALITION}⟩ {0}
     true false (by decide),
   feasibleFamily_empty_coalition_invariant.2.2.1
     ⟨2, {EMPTY_COALITION, ({0} : Finset ℤ)}⟩ {0} (by decide),
   (feasibleFamily_empty_coalition_invariant.2.2.2 ⟨2, {EMPTY_COALITION}⟩).1⟩

/-- C9: "For every FeasibleFamily, the membership operator `in`
(FeasibleFamily.__contains__) never raises: when the queried object cannot
be coerced into a Coalition (the coercion raises a type error), it returns
False instead of propagating the error, unlike add and remove which
propagate the type error."  `containsObj` is a total Boolean function by
construction; on a non-coercible argument it answers `false` while `add`
and `remove` re-raise the coercion's `TypeError` with the state
untouched. -/
theorem feasibleFamily_contains_never_raises
    (fam : FeasibleFamily) (obj : PyObj) (eh euc : Bool) (e : Err)
    (h : toCoalition obj = .error e) :
    fam.containsObj obj = false ∧
    fam.addObj obj eh euc = (fam, some e) ∧
    fam.removeObj obj = (fam, some e) := by
  refine ⟨?_, ?_, ?_⟩ <;>
    simp only [FeasibleFamily.containsObj, FeasibleFamily.addObj,
      FeasibleFamily.removeObj, h]

/-- Closed instance of `feasibleFamily_contains_never_raises` at the
non-coercible argument. -/
theorem feasibleFamily_contains_never_raises_witness :
    (⟨1, {EMPTY_COALITION}⟩ : FeasibleFamily).containsObj .other = false ∧
    (⟨1, {EMPTY_COALITION}⟩ : FeasibleFamily).addObj .other true false
      = (⟨1, {EMPTY_COALITION}⟩, some .typeError) ∧
    (⟨1, {EMPTY_COALITION}⟩ : FeasibleFamily).removeObj .other
      = (⟨1, {EMPTY_COALITION}⟩, some .typeError) :=
  feasibleFamily_contains_never_raises ⟨1, {EMPTY_COALITION}⟩ .other
    true false .typeError rfl

/-- C5: "For every FeasibleFamily and every in-range coalition S, after
add(S, enforce_heredity=true) returns, every subcoalition of S is a member
of the family."  Stated for an arbitrary `enforce_union_closed` flag, since
the union closure only ever inserts. -/
theorem add_heredity_subcoalitions
    (fam : FeasibleFamily) (C T : Coalition) (euc : Bool)
    (h : ¬ hasOutOfRangePlayer fam.n C) (hT : T ⊆ C) :
    (fam.addRun C true euc).2 = none ∧
    T ∈ (fam.addRun C true euc).1.F := by
  rw [FeasibleFamily.addRun_ok h]
  dsimp only
  refine ⟨rfl, ?_⟩
  have h2 : T ∈ insert C fam.F ∪ C.all_subcoalitions :=
    Finset.mem_union_right _ (Finset.mem_powerset.mpr hT)
  simp only [if_true]
  cases euc
  · simpa using h2
  · simpa using FeasibleFamily.subset_closeUnderUnion _ h2

/-- Closed instance of `add_heredity_subcoalitions`: adding `{0,1}` to a
2-player family holding only the empty coalition makes the subcoalition
`{0}` a member. -/
theorem add_heredity_subcoalitions_witness :
    ((⟨2, {EMPTY_COALITION}⟩ : FeasibleFamily).addRun {0, 1} true false).2
      = none ∧
    ({0} : Finset ℤ) ∈
      ((⟨2, {EMPTY_COALITION}⟩ : FeasibleFamily).addRun {0, 1} true false).1.F :=
  add_heredity_subcoalitions ⟨2, {EMPTY_COALITION}⟩ {0, 1} {0} false
    (by decide) (by decide)

/-- C4: "For every FeasibleFamily and every in-range coalition S, after
add(S, enforce_union_closed=true) returns, is_union_closed() returns true
on the resulting family: the internal closure-under-union loop has reached
a fixed point at which every pairwise union of members is a member."
Stated for either value of the heredity flag. -/
theorem add_union_closed_fixed_point
    (fam : FeasibleFamily) (C : Coalition) (eh : Bool)
    (h : ¬ hasOutOfRangePlayer fam.n C) :
    (fam.addRun C eh true).2 = none ∧
    (fam.addRun C eh true).1.is_union_closed = true := by
  rw [FeasibleFamily.addRun_ok h]
  dsimp only
  refine ⟨rfl, ?_⟩
  unfold FeasibleFamily.is_union_closed
  simp only [if_true, decide_eq_true_eq]
  intro A hA B hB
  exact FeasibleFamily.closeUnderUnion_unionClosed hA hB

/-- Closed instance of `add_union_closed_fixed_point`: after adding `{0,1}`
with union closure enforced to a 2-player family, `is_union_closed`
answers true. -/
theorem add_union_closed_fixed_point_witness :
    ((⟨2, {EMPTY_COALITION}⟩ : FeasibleFamily).addRun {0, 1} true true).2
      = none ∧
    ((⟨2, {EMPTY_COALITION}⟩ : FeasibleFamily).addRun {0, 1} true true).1.is_union_closed
      = true :=
  add_union_closed_fixed_point ⟨2, {EMPTY_COALITION}⟩ {0, 1} true (by decide)

/-- C8: "For every RestrictedGame and every coercible input S, get_value(S)
and set_value(S, value) fail with a domain error exactly when the
corresponding coalition is not in the feasible family, and otherwise
delegate to the base game's value lookup or assignment (with set_value
storing the value coerced to a real number), so that a feasible get_value
after a feasible set_value returns the stored value." -/
theorem restrictedGame_value_feasibility_gate
    (rg : RestrictedGame) (S : PyObj) (C : Coalition) (v : ℚ)
    (hS : toCoalition S = .ok C) :
    (rg.get_value S = .error .domainError ↔ C ∉ rg.F.F) ∧
    (C ∈ rg.F.F → rg.get_value S = rg.game.get_value C) ∧
    (rg.set_value S v = .error .domainError ↔ C ∉ rg.F.F) ∧
    (C ∈ rg.F.F →
      rg.set_value S v = .ok ⟨rg.game.set_value C v, rg.F⟩ ∧
      (RestrictedGame.mk (rg.game.set_value C v) rg.F).get_value S = .ok v) := by
  by_cases hF : C ∈ rg.F.F
  · have hfeas : rg.F.is_feasible C = true := by
      unfold FeasibleFamily.is_feasible
      simpa using hF
    refine ⟨?_, ?_, ?_, ?_⟩
    · simp only [RestrictedGame.get_value, hS, hfeas, if_true]
      constructor
      · intro h
        cases hv : rg.game.values C <;>
          simp only [Game.get_value, hv] at h <;> simp_all
      · intro h
        exact absurd hF h
    · intro _
      simp only [RestrictedGame.get_value, hS, hfeas, if_true]
    · simp only [RestrictedGame.set_value, hS, hfeas, if_true]
      constructor
      · intro h
        cases h
      · intro h
        exact absurd hF h
    · intro _
      refine ⟨by simp only [RestrictedGame.set_value, hS, hfeas, if_true], ?_⟩
      have hfeas2 : (RestrictedGame.mk (rg.game.set_value C v) rg.F).F.is_feasible C = true := hfeas
      simp only [RestrictedGame.get_value, hS, hfeas2, if_true]
      unfold Game.get_value Game.set_value
      simp [Function.update_same]
  · have hfeas : rg.F.is_feasible C = false := by
      unfold FeasibleFamily.is_feasible
      simpa using hF
    refine ⟨?_, ?_, ?_, ?_⟩
    · simp [RestrictedGame.get_value, hS, hfeas, hF]
    · intro h
      exact absurd h hF
    · simp [RestrictedGame.set_value, hS, hfeas, hF]
    · intro h
      exact absurd h hF

/-- Closed instance of `restrictedGame_value_feasibility_gate` on the §8
example game at the feasible coalition `{0}`. -/
theorem restrictedGame_value_feasibility_gate_witness :
    (rgEx.get_value (.coalition {0}) = .error .domainError
      ↔ ({0} : Finset ℤ) ∉ rgEx.F.F) ∧
    (({0} : Finset ℤ) ∈ rgEx.F.F →
      rgEx.get_value (.coalition {0}) = rgEx.game.get_value {0}) ∧
    (rgEx.set_value (.coalition {0}) 5 = .error .domainError
      ↔ ({0} : Finset ℤ) ∉ rgEx.F.F) ∧
    (({0} : Finset ℤ) ∈ rgEx.F.F →
      rgEx.set_value (.coalition {0}) 5
        = .ok ⟨rgEx.game.set_value {0} 5, rgEx.F⟩ ∧
      (RestrictedGame.mk (rgEx.game.set_value {0} 5) rgEx.F).get_value
        (.coalition {0}) = .ok 5) :=
  restrictedGame_value_feasibility_gate rgEx (.coalition {0}) {0} 5 rfl

/-- C10: "For every FeasibleFamily, coalitions() (and the
RestrictedGame.feasible property built on it) returns a fresh set equal to
F, not an alias of the internal set: any mutation of the returned set
leaves the family's own membership, and the results of subsequent
is_feasible queries, unchanged."  In the store model, `set(self._F)`
allocates at a fresh address whose contents equal `_F`; writing anything
through the returned address leaves `_F`'s address, and hence
`is_feasible`, untouched. -/
theorem coalitions_returns_fresh_copy
    (h : SetStore) (fam : FeasibleFamilyRef) (hv : fam.valid h) :
    ((fam.coalitionsRef h).2 ≠ fam.addr) ∧
    ((fam.coalitionsRef h).1.contents (fam.coalitionsRef h).2
      = h.contents fam.addr) ∧
    (∀ (s : Finset Coalition) (C : Coalition),
      fam.isFeasibleRef (((fam.coalitionsRef h).1.write
        (fam.coalitionsRef h).2 s)) C = fam.isFeasibleRef h C) ∧
    RestrictedGame.feasibleRef fam h = fam.coalitionsRef h := by
  unfold FeasibleFamilyRef.valid at hv
  have hne : h.next ≠ fam.addr := by omega
  refine ⟨hne, ?_, ?_, rfl⟩
  · show (Function.update h.contents h.next (h.contents fam.addr)) h.next
      = h.contents fam.addr
    rw [Function.update_same]
  · intro s C
    show (C ∈ Function.update
        (Function.update h.contents h.next (h.contents fam.addr))
        h.next s fam.addr : Bool)
      = (C ∈ h.contents fam.addr : Bool)
    rw [Function.update_noteq (fun e => hne e.symm),
      Function.update_noteq (fun e => hne e.symm)]

/-- Closed instance of `coalitions_returns_fresh_copy` on a one-object
store. -/
theorem coalitions_returns_fresh_copy_witness :
    (((⟨3, 0⟩ : FeasibleFamilyRef).coalitionsRef
        ⟨fun _ => {EMPTY_COALITION}, 1⟩).2 ≠ 0) ∧
    ((((⟨3, 0⟩ : FeasibleFamilyRef).coalitionsRef
        ⟨fun _ => {EMPTY_COALITION}, 1⟩).1.contents
        ((⟨3, 0⟩ : FeasibleFamilyRef).coalitionsRef
          ⟨fun _ => {EMPTY_COALITION}, 1⟩).2)
      = (⟨fun _ => {EMPTY_COALITION}, 1⟩ : SetStore).contents 0) ∧
    (∀ (s : Finset Coalition) (C : Coalition),
      (⟨3, 0⟩ : FeasibleFamilyRef).isFeasibleRef
        ((((⟨3, 0⟩ : FeasibleFamilyRef).coalitionsRef
            ⟨fun _ => {EMPTY_COALITION}, 1⟩).1.write
          ((⟨3, 0⟩ : FeasibleFamilyRef).coalitionsRef
            ⟨fun _ => {EMPTY_COALITION}, 1⟩).2 s)) C
        = (⟨3, 0⟩ : FeasibleFamilyRef).isFeasibleRef
            ⟨fun _ => {EMPTY_COALITION}, 1⟩ C) ∧
    RestrictedGame.feasibleRef ⟨3, 0⟩ ⟨fun _ => {EMPTY_COALITION}, 1⟩
      = (⟨3, 0⟩ : FeasibleFamilyRef).coalitionsRef
          ⟨fun _ => {EMPTY_COALITION}, 1⟩ :=
  coalitions_returns_fresh_copy ⟨fun _ => {EMPTY_COALITION}, 1⟩ ⟨3, 0⟩
    (by simp [FeasibleFamilyRef.valid])

/-- C3: "For every restricted game and every permutation processed by
shapley_feasible (in either mode), at each step the candidate coalition
prefix-union-`{i}` contributes value(candidate) minus value(prefix) to
player i's total exactly when the candidate is feasible, and the prefix is
advanced to the candidate regardless of feasibility; hence for any
coalition S excluded from the feasible family, a permutation whose prefix
reaches exactly S awards no marginal contribution to the player completing
S at that step."  Both modes run `process_single_permutation`, whose walk
is the fold of `permStep`, so the three parts below cover either mode:
the feasible step adds the marginal and advances, the infeasible step
advances without touching `phi`, and a walk whose candidate completes an
excluded `S` hands the accumulator through that step unchanged. -/
theorem permStep_contribution_iff_feasible
    (rg : RestrictedGame) (P : Coalition) (phi : ℤ → ℚ) (i : ℤ)
    (a b : ℚ) :
    (rg.is_feasible (Coalition.addPlayer P i) = true →
      rg.game.get_value (Coalition.addPlayer P i) = .ok a →
      rg.game.get_value P = .ok b →
      permStep rg (P, phi) i =
        .ok (Coalition.addPlayer P i,
          Function.update phi i (phi i + (a - b)))) ∧
    (rg.is_feasible (Coalition.addPlayer P i) = false →
      permStep rg (P, phi) i = .ok (Coalition.addPlayer P i, phi)) ∧
    (∀ (pre : List ℤ) (S : Coalition) (phi1 : ℤ → ℚ),
      pre.foldlM (permStep rg) (EMPTY_COALITION, phi) = .ok (S, phi1) →
      Coalition.addPlayer S i ∉ rg.F.F →
      (pre ++ [i]).foldlM (permStep rg) (EMPTY_COALITION, phi) =
        .ok (Coalition.addPlayer S i, phi1)) := by
  refine ⟨?_, ?_, ?_⟩
  · intro hfeas ha hb
    simp only [permStep, hfeas, if_true, ha, hb]
  · intro hfeas
    simp only [permStep, hfeas, Bool.false_eq_true, if_false]
  · intro pre S phi1 hpre hS
    have hfeas : rg.is_feasible (Coalition.addPlayer S i) = false := by
      unfold RestrictedGame.is_feasible FeasibleFamily.is_feasible
      simpa using hS
    rw [List.foldlM_append, hpre]
    show ([i].foldlM (permStep rg) (S, phi1)) = _
    simp only [List.foldlM_cons, List.foldlM_nil, permStep, hfeas,
      Bool.false_eq_true, if_false]
    rfl

/-- Closed instance of `permStep_contribution_iff_feasible` on a 2-player
family containing only ∅ and {0}: the feasible candidate `{0}` contributes
its marginal, the infeasible candidate `{1}` (the excluded `S` reached from
the empty prefix) advances the walk without awarding a contribution. -/
theorem permStep_contribution_iff_feasible_witness :
    (permStep ⟨⟨2, fun _ => some 1⟩, ⟨2, {EMPTY_COALITION, ({0} : Finset ℤ)}⟩⟩
        (EMPTY_COALITION, fun _ => 0) 0 =
      .ok (Coalition.addPlayer EMPTY_COALITION 0,
        Function.update (fun _ => (0 : ℚ)) 0
          ((fun _ => (0 : ℚ)) 0 + (1 - 1)))) ∧
    (permStep ⟨⟨2, fun _ => some 1⟩, ⟨2, {EMPTY_COALITION, ({0} : Finset ℤ)}⟩⟩
        (EMPTY_COALITION, fun _ => 0) 1 =
      .ok (Coalition.addPlayer EMPTY_COALITION 1, fun _ => (0 : ℚ))) ∧
    (([] ++ [(1 : ℤ)]).foldlM
        (permStep ⟨⟨2, fun _ => some 1⟩, ⟨2, {EMPTY_COALITION, ({0} : Finset ℤ)}⟩⟩)
        (EMPTY_COALITION, fun _ => (0 : ℚ)) =
      .ok (Coalition.addPlayer EMPTY_COALITION 1, fun _ => (0 : ℚ))) :=
  ⟨(permStep_contribution_iff_feasible _ EMPTY_COALITION (fun _ => 0) 0 1 1).1
      (by decide) rfl rfl,
   (permStep_contribution_iff_feasible _ EMPTY_COALITION (fun _ => 0) 1 1 1).2.1
      (by decide),
   (permStep_contribution_iff_feasible _ EMPTY_COALITION (fun _ => 0) 1 1 1).2.2
      [] EMPTY_COALITION (fun _ => 0) rfl (by decide)⟩

/-! ## Lemmas for the exact-mode Shapley computation -/

theorem playersList_nodup (n : ℕ) : (playersList n).Nodup :=
  List.Nodup.map (fun _ _ h => Int.ofNat_inj.mp h) (List.nodup_range n)

theorem length_playersList (n : ℕ) : (playersList n).length = n := by
  simp [playersList]

theorem length_permutations_players (n : ℕ) :
    ((playersList n).permutations').length = n.factorial := by
  rw [← (List.permutations_perm_permutations' (playersList n)).length_eq,
    List.length_permutations, length_playersList]

/-- Under the hypotheses of claim C2 (value recorded for every coalition of
the players, full power set feasible), the monadic walk of one ordering is
the pure fold of `stepPure`. -/
theorem foldlM_permStep_eq_pure
    (rg : RestrictedGame) (w : Coalition → ℚ) (n : ℕ)
    (hv : ∀ C ∈ (playerSet n).powerset, rg.game.values C = some (w C))
    (hF : rg.F.F = (playerSet n).powerset) :
    ∀ (order : List ℤ) (st : Coalition × (ℤ → ℚ)),
      (∀ p ∈ order, p ∈ playerSet n) → st.1 ⊆ playerSet n →
      order.foldlM (permStep rg) st = .ok (order.foldl (stepPure w) st) := by
  intro order
  induction order with
  | nil => intro st _ _; rfl
  | cons p rest ih =>
    intro st hp hst
    rw [List.foldlM_cons]
    have hcand : insert p st.1 ⊆ playerSet n :=
      Finset.insert_subset (hp p (List.mem_cons_self p rest)) hst
    have hfeas : rg.is_feasible (insert p st.1) = true := by
      unfold RestrictedGame.is_feasible FeasibleFamily.is_feasible
      rw [hF]
      simpa using hcand
    have hga : rg.game.get_value (insert p st.1)
        = .ok (w (insert p st.1)) := by
      unfold Game.get_value
      rw [hv _ (Finset.mem_powerset.mpr hcand)]
    have hgb : rg.game.get_value st.1 = .ok (w st.1) := by
      unfold Game.get_value
      rw [hv _ (Finset.mem_powerset.mpr hst)]
    have hstep : permStep rg st p = .ok (stepPure w st p) := by
      simp only [permStep, Coalition.addPlayer, hfeas, if_true, hga, hgb,
        stepPure]
    rw [hstep]
    show rest.foldlM (permStep rg) (stepPure w st p) = _
    rw [ih (stepPure w st p) (fun q hq => hp q (List.mem_cons_of_mem p hq))
      hcand]
    rfl

theorem foldl_stepPure_not_mem (w : Coalition → ℚ) :
    ∀ (order : List ℤ) (st : Coalition × (ℤ → ℚ)) (j : ℤ), j ∉ order →
      (order.foldl (stepPure w) st).2 j = st.2 j := by
  intro order
  induction order with
  | nil => intro st j _; rfl
  | cons p rest ih =>
    intro st j hj
    rw [List.foldl_cons]
    rw [ih _ j (fun h => hj (List.mem_cons_of_mem p h))]
    exact Function.update_noteq
      (fun h => hj (by rw [h]; exact List.mem_cons_self p rest)) _ _

/-- The accumulator after walking one ordering: player `j` gained exactly
its marginal contribution relative to the starting coalition, once,
provided the ordering has no duplicates. -/
theorem foldl_stepPure_apply (w : Coalition → ℚ) :
    ∀ (order : List ℤ), order.Nodup →
      ∀ (st : Coalition × (ℤ → ℚ)) (j : ℤ),
      (order.foldl (stepPure w) st).2 j =
        if j ∈ order then
          st.2 j + (w (insert j (st.1 ∪ prefixBefore order j))
            - w (st.1 ∪ prefixBefore order j))
        else st.2 j := by
  intro order
  induction order with
  | nil => intro _ st j; simp
  | cons p rest ih =>
    intro hnd st j
    have hnd' : rest.Nodup := hnd.of_cons
    have hpr : p ∉ rest := (List.nodup_cons.mp hnd).1
    rw [List.foldl_cons]
    by_cases hjp : j = p
    · subst hjp
      rw [foldl_stepPure_not_mem w rest _ j hpr]
      have h1 : prefixBefore (j :: rest) j = ∅ := by
        simp [prefixBefore, List.takeWhile_cons]
      rw [h1]
      simp [stepPure, Function.update_same]
    · rw [ih hnd' (stepPure w st p) j]
      have h2 : prefixBefore (p :: rest) j = insert p (prefixBefore rest j) := by
        simp [prefixBefore, List.takeWhile_cons, Ne.symm hjp]
      by_cases hjr : j ∈ rest
      · have hmem : j ∈ p :: rest := List.mem_cons_of_mem p hjr
        rw [if_pos hjr, if_pos hmem, h2]
        have h3 : (stepPure w st p).1 ∪ prefixBefore rest j
            = st.1 ∪ insert p (prefixBefore rest j) := by
          simp only [stepPure, Finset.insert_union, Finset.union_insert]
        rw [h3]
        have h4 : (stepPure w st p).2 j = st.2 j :=
          Function.update_noteq hjp _ _
        rw [h4]
      · have hmem : j ∉ p :: rest := by
          simp [hjp, hjr]
        rw [if_neg hjr, if_neg hmem]
        exact Function.update_noteq hjp _ _

/-- Telescoping: over one duplicate-free ordering, the marginal
contributions of all its players sum to the value of the coalition the
walk reaches minus the value of the starting coalition. -/
theorem marginal_sum_telescope (w : Coalition → ℚ) :
    ∀ (order : List ℤ), order.Nodup → ∀ (P0 : Coalition),
      ((order.map (fun i => w (insert i (P0 ∪ prefixBefore order i))
          - w (P0 ∪ prefixBefore order i))).sum)
        = w (P0 ∪ order.toFinset) - w P0 := by
  intro order
  induction order with
  | nil => intro _ P0; simp
  | cons p rest ih =>
    intro hnd P0
    have hnd' : rest.Nodup := hnd.of_cons
    have hpr : p ∉ rest := (List.nodup_cons.mp hnd).1
    rw [List.map_cons, List.sum_cons]
    have h1 : prefixBefore (p :: rest) p = ∅ := by
      simp [prefixBefore, List.takeWhile_cons]
    have h2 : (rest.map (fun i => w (insert i (P0 ∪ prefixBefore (p :: rest) i))
          - w (P0 ∪ prefixBefore (p :: rest) i)))
        = (rest.map (fun i => w (insert i (insert p P0 ∪ prefixBefore rest i))
          - w (insert p P0 ∪ prefixBefore rest i))) := by
      apply List.map_congr_left
      intro i hi
      have hip : ¬ (i = p) := fun h => hpr (h ▸ hi)
      have h3 : prefixBefore (p :: rest) i = insert p (prefixBefore rest i) := by
        simp [prefixBefore, List.takeWhile_cons, Ne.symm hip]
      rw [h3, Finset.union_insert, ← Finset.insert_union]
    rw [h1, h2, ih hnd' (insert p P0)]
    simp only [Finset.union_empty, List.toFinset_cons, Finset.union_insert,
      Finset.insert_union]
    ring

theorem foldlM_processPerm_eq
    (rg : RestrictedGame) (w : Coalition → ℚ) (n : ℕ)
    (hv : ∀ C ∈ (playerSet n).powerset, rg.game.values C = some (w C))
    (hF : rg.F.F = (playerSet n).powerset) :
    ∀ (perms : List (List ℤ)) (phi : ℤ → ℚ),
      (∀ ord ∈ perms, ∀ p ∈ ord, p ∈ playerSet n) →
      perms.foldlM (processPerm rg) phi =
        .ok (perms.foldl
          (fun acc ord => (ord.foldl (stepPure w) (EMPTY_COALITION, acc)).2)
          phi) := by
  intro perms
  induction perms with
  | nil => intro phi _; rfl
  | cons ord rest ih =>
    intro phi hords
    rw [List.foldlM_cons]
    have h1 : processPerm rg phi ord
        = .ok ((ord.foldl (stepPure w) (EMPTY_COALITION, phi)).2) := by
      unfold processPerm
      rw [foldlM_permStep_eq_pure rg w n hv hF ord (EMPTY_COALITION, phi)
        (hords ord (List.mem_cons_self ord rest)) (by simp [EMPTY_COALITION])]
      rfl
    rw [h1]
    show rest.foldlM (processPerm rg) _ = _
    rw [ih _ (fun o ho => hords o (List.mem_cons_of_mem ord ho))]
    rfl

theorem foldl_orders_apply (w : Coalition → ℚ) :
    ∀ (perms : List (List ℤ)) (phi : ℤ → ℚ) (j : ℤ),
      (∀ ord ∈ perms, ord.Nodup) →
      (perms.foldl
        (fun acc ord => (ord.foldl (stepPure w) (EMPTY_COALITION, acc)).2)
        phi) j
        = phi j + ((perms.map
            (fun ord => if j ∈ ord then marginalOfOrder w ord j else 0)).sum) := by
  intro perms
  induction perms with
  | nil => intro phi j _; simp
  | cons ord rest ih =>
    intro phi j hnd
    rw [List.foldl_cons, List.map_cons, List.sum_cons]
    rw [ih _ j (fun o ho => hnd o (List.mem_cons_of_mem ord ho))]
    rw [foldl_stepPure_apply w ord (hnd ord (List.mem_cons_self ord rest))
      (EMPTY_COALITION, phi) j]
    by_cases hj : j ∈ ord
    · rw [if_pos hj, if_pos hj]
      unfold marginalOfOrder
      simp only [EMPTY_COALITION, Finset.empty_union]
      ring
    · rw [if_neg hj, if_neg hj]
      ring

theorem sum_map_div {α : Type} (l : List α) (f : α → ℚ) (c : ℚ) :
    (l.map (fun x => f x / c)).sum = (l.map f).sum / c := by
  induction l with
  | nil => simp
  | cons a t ih => simp [ih, add_div]

theorem sum_map_add_distrib {α : Type} (l : List α) (f g : α → ℚ) :
    (l.map (fun x => f x + g x)).sum = (l.map f).sum + (l.map g).sum := by
  induction l with
  | nil => simp
  | cons a t ih =>
    simp only [List.map_cons, List.sum_cons, ih]
    ring

theorem list_sum_swap {α β : Type} (l1 : List α) (l2 : List β)
    (f : α → β → ℚ) :
    (l1.map (fun a => (l2.map (f a)).sum)).sum
      = (l2.map (fun b => (l1.map (fun a => f a b)).sum)).sum := by
  induction l1 with
  | nil => simp
  | cons a t ih =>
    rw [List.map_cons, List.sum_cons, ih,
      ← sum_map_add_distrib l2 (f a) (fun b => (t.map (fun a => f a b)).sum)]
    rfl

/-- Exact-mode `shapley_feasible` on a full-power-set family with all
values recorded returns the player-indexed list of classical Shapley
values. -/
theorem shapley_exact_eq_map_classical
    (rg : RestrictedGame) (w : Coalition → ℚ)
    (hv : ∀ C ∈ (playerSet rg.number_of_players.toNat).powerset,
      rg.game.values C = some (w C))
    (hF : rg.F.F = (playerSet rg.number_of_players.toNat).powerset) :
    shapley_feasible rg =
      .ok ((playersList rg.number_of_players.toNat).map
        (classicalShapley rg.number_of_players.toNat w)) := by
  have hords : ∀ ord ∈ (playersList rg.number_of_players.toNat).permutations',
      ∀ p ∈ ord, p ∈ playerSet rg.number_of_players.toNat := by
    intro ord hord p hp
    have hperm := List.mem_permutations'.mp hord
    exact List.mem_toFinset.mpr (hperm.mem_iff.mp hp)
  have hnodups : ∀ ord ∈ (playersList rg.number_of_players.toNat).permutations',
      ord.Nodup := by
    intro ord hord
    exact (List.mem_permutations'.mp hord).nodup_iff.mpr
      (playersList_nodup rg.number_of_players.toNat)
  unfold shapley_feasible
  dsimp only
  rw [foldlM_processPerm_eq rg w rg.number_of_players.toNat hv hF _ _ hords]
  show Except.ok _ = _
  congr 1
  apply List.map_congr_left
  intro i hi
  rw [foldl_orders_apply w _ _ i hnodups]
  rw [zero_add]
  unfold classicalShapley
  congr 2
  apply List.map_congr_left
  intro ord hord
  rw [if_pos ((List.mem_permutations'.mp hord).mem_iff.mpr hi)]

/-- Efficiency of the classical Shapley value up to the value of the empty
coalition: the values of the `n` players sum to `v(N) - v(∅)`. -/
theorem sum_map_classicalShapley (n : ℕ) (w : Coalition → ℚ) :
    ((playersList n).map (classicalShapley n w)).sum
      = w (playerSet n) - w EMPTY_COALITION := by
  have hstep1 : ((playersList n).map (classicalShapley n w)).sum
      = ((playersList n).map (fun i =>
          (((playersList n).permutations').map
            (fun ord => marginalOfOrder w ord i)).sum / (n.factorial : ℚ))).sum := rfl
  rw [hstep1, sum_map_div (playersList n)
    (fun i => (((playersList n).permutations').map
      (fun ord => marginalOfOrder w ord i)).sum) (n.factorial : ℚ)]
  rw [list_sum_swap (playersList n) ((playersList n).permutations')
    (fun i ord => marginalOfOrder w ord i)]
  have hinner : (((playersList n).permutations').map
      (fun ord => ((playersList n).map
        (fun i => marginalOfOrder w ord i)).sum))
      = ((playersList n).permutations').map
          (fun _ => w (playerSet n) - w EMPTY_COALITION) := by
    apply List.map_congr_left
    intro ord hord
    have hperm := List.mem_permutations'.mp hord
    have hnd : ord.Nodup := hperm.nodup_iff.mpr (playersList_nodup n)
    rw [← (hperm.map (fun i => marginalOfOrder w ord i)).sum_eq]
    have hcongr : (ord.map (fun i => marginalOfOrder w ord i))
        = ord.map (fun i =>
            w (insert i (∅ ∪ prefixBefore ord i)) - w (∅ ∪ prefixBefore ord i)) := by
      apply List.map_congr_left
      intro i _
      unfold marginalOfOrder
      rw [Finset.empty_union]
    rw [hcongr, marginal_sum_telescope w ord hnd ∅]
    rw [Finset.empty_union]
    have h5 : ord.toFinset = playerSet n := List.toFinset_eq_of_perm _ _ hperm
    rw [h5]
    rfl
  rw [hinner, List.map_const', List.sum_replicate, length_permutations_players,
    nsmul_eq_mul]
  exact mul_div_cancel_left₀ _ (Nat.cast_ne_zero.mpr (Nat.factorial_ne_zero n))

section ConcreteEvaluation

/- Batteries marks the arithmetic of `Rat` `@[irreducible]`; the concrete
runs of `shapley_feasible` below are checked by `decide`, which needs the
elaborator to evaluate that arithmetic. -/
attribute [local semireducible] Rat.add Rat.sub Rat.mul Rat.inv

deriving instance DecidableEq for Except

/-- C2 (amended): for every game whose feasible family is the full power
set of the n players and whose base game defines a value for every
coalition of those players, exact-mode shapley_feasible returns, at each
index i, exactly the classical Shapley value of player i (the average
marginal contribution over all orderings), and the returned values sum to
v(grand coalition) - v(empty coalition) — hence to the value of the grand
coalition whenever the empty coalition's value is 0, as in the §8 example;
in particular, for the 3-player game with v(∅)=0, v({0})=1, v({1})=1,
v({2})=1/2, v({0,1})=3, v({0,2})=6/5, v({1,2})=11/10, v({0,1,2})=4, the
outputs are exactly [7/4, 17/10, 11/20] and sum to 4.  (Python floats are
modelled as exact rationals; the original claim's unconditional "sum to the
value of the grand coalition" fails when v(∅) ≠ 0, see
`shapley_sum_grand_counterexample`.) -/
theorem shapley_full_powerset_classical :
    (∀ (rg : RestrictedGame) (w : Coalition → ℚ),
      (∀ C ∈ (playerSet rg.number_of_players.toNat).powerset,
        rg.game.values C = some (w C)) →
      rg.F.F = (playerSet rg.number_of_players.toNat).powerset →
      shapley_feasible rg =
        .ok ((playersList rg.number_of_players.toNat).map
          (classicalShapley rg.number_of_players.toNat w)) ∧
      ((playersList rg.number_of_players.toNat).map
          (classicalShapley rg.number_of_players.toNat w)).sum
        = w (playerSet rg.number_of_players.toNat) - w EMPTY_COALITION) ∧
    shapley_feasible rgEx = .ok [7/4, 17/10, 11/20] ∧
    ([(7 : ℚ)/4, 17/10, 11/20].sum = 4) := by
  refine ⟨?_, by decide, by decide⟩
  intro rg w hv hF
  exact ⟨shapley_exact_eq_map_classical rg w hv hF,
    sum_map_classicalShapley rg.number_of_players.toNat w⟩

/-- Counterexample to C2 as stated: a 2-player game in which every
coalition — the empty one included — has value 1, with the full power set
feasible and every value recorded.  Exact-mode `shapley_feasible` returns
`[0, 0]`, whose sum 0 is not the grand coalition's value 1: the returned
values sum to `v(N) - v(∅)`, not to `v(N)`, when `v(∅) ≠ 0`. -/
theorem shapley_sum_grand_counterexample :
    rgOne.F.F = (playerSet 2).powerset ∧
    (∀ C ∈ (playerSet 2).powerset, rgOne.game.values C = some 1) ∧
    shapley_feasible rgOne = .ok [0, 0] ∧
    ([(0 : ℚ), 0].sum = 0) ∧
    rgOne.game.values (playerSet 2) = some 1 ∧
    (0 : ℚ) ≠ 1 := by
  refine ⟨rfl, by decide, by decide, by decide, rfl, by norm_num⟩

/-- Closed instance of `shapley_full_powerset_classical` at the §8 example
game with its total value function `wEx`. -/
theorem shapley_full_powerset_classical_witness :
    shapley_feasible rgEx =
      .ok ((playersList rgEx.number_of_players.toNat).map
        (classicalShapley rgEx.number_of_players.toNat wEx)) ∧
    ((playersList rgEx.number_of_players.toNat).map
        (classicalShapley rgEx.number_of_players.toNat wEx)).sum
      = wEx (playerSet rgEx.number_of_players.toNat) - wEx EMPTY_COALITION :=
  shapley_full_powerset_classical.1 rgEx wEx (by decide) (by decide)

end ConcreteEvaluation
